import Mathlib

/-!
Shallow embedding of `ics2text.py` (sensidev/ics2text).

The program is a linear pipeline: parse calendar files into VEVENT
components, filter events by case-insensitive keyword substring match,
deduplicate by UID (first occurrence wins), sort by the formatted start
string, and report counts plus text/CSV output.

Strings are modelled as `List Char`.  Python `str(None)` yields the
placeholder `"None"`; Python exceptions that the extractor can raise
(IndexError on `split(':')[1]`, AttributeError on `None.dt`) are modelled
with `Except PyErr`.  Python's stable `sorted` is modelled as a stable
insertion sort, which computes the unique stable sorting of the list.
-/

abbrev Str := List Char

/-- ASCII case folding, modelling Python `.lower()` on the inputs used here. -/
def lowerStr (s : Str) : Str := s.map Char.toLower

/-- Python substring containment `needle in hay` (contiguous substring). -/
def containsSub (needle : Str) : Str → Bool
  | [] => needle.isPrefixOf []
  | x :: xs => needle.isPrefixOf (x :: xs) || containsSub needle xs

/-- Case-insensitive substring test, modelling `keyword.lower() in text.lower()`. -/
def occursIn (k t : Str) : Bool := containsSub (lowerStr k) (lowerStr t)

/-- The match test of lines 37-41: keyword in SUMMARY or DESCRIPTION or any attendee. -/
def kwMatch (k summary description : Str) (attendees : List Str) : Bool :=
  occursIn k summary || occursIn k description || attendees.any (fun a => occursIn k a)

/-- The comprehension of lines 37-41: keywords (input order) passing the match test. -/
def matchedKeywordsOf (ks : List Str) (summary description : Str) (attendees : List Str) :
    List Str :=
  ks.filter (fun k => kwMatch k summary description attendees)

/-- Python `s.split(c)` for a single-character separator `c`. -/
def splitOnChar (c : Char) : Str → List Str
  | [] => [[]]
  | x :: xs =>
    let r := splitOnChar c xs
    if x = c then [] :: r
    else
      match r with
      | [] => [[x]]
      | h :: t => (x :: h) :: t

/-- Line 34: `attendee...split(':')[1]`; `none` models the IndexError case. -/
def extractId (s : Str) : Option Str := (splitOnChar ':' s)[1]?

/-- The placeholder produced by Python `str(None)`. -/
def noneStr : Str := ['N', 'o', 'n', 'e']

/-- Python `str(component.get(FIELD))`: the text when present, `"None"` when absent. -/
def pyStr : Option Str → Str
  | none => noneStr
  | some s => s

/-- Python exceptions the extractor can raise. -/
inductive PyErr where
  | indexError
  | attrError
deriving DecidableEq

/-- One VEVENT component: raw optional fields as the code reads them.
`DTSTART`/`DTEND` hold the already `strftime`-formatted start/end when present;
`ATTENDEE` holds the raw attendee values (after `to_ical().decode()`), a single
attendee being a one-element list as the code normalizes it. -/
structure VEvent where
  SUMMARY : Option Str
  DESCRIPTION : Option Str
  ATTENDEE : Option (List Str)
  DTSTART : Option Str
  DTEND : Option Str
  LOCATION : Option Str
  UID : Option Str
deriving DecidableEq

/-- Python `', '` separator used for the Guests field. -/
def commaSpace : Str := [',', ' ']

/-- The `event_info` dict of lines 44-53. -/
structure EventInfo where
  Event : Str
  Start : Str
  End : Str
  Guests : Str
  Location : Str
  UID : Option Str
  SourceFile : Str
  MatchedKeywords : List Str
deriving DecidableEq

/-- The comprehension of line 34 over the attendee list: left to right,
first IndexError aborts. -/
def extractIds : List Str → Except PyErr (List Str)
  | [] => .ok []
  | a :: as =>
    match extractId a with
    | none => .error .indexError
    | some r =>
      match extractIds as with
      | .error e => .error e
      | .ok rs => .ok (r :: rs)

/-- Lines 28-34: absent ATTENDEE (or a falsy empty list) gives `[]`, otherwise
each raw value is split on `':'` and element 1 taken. -/
def attendeesListOf : Option (List Str) → Except PyErr (List Str)
  | none => .ok []
  | some vals => if vals.isEmpty then .ok [] else extractIds vals

/-- Lines 25-54 for a single VEVENT: returns `ok none` when no keyword matches,
`ok (some info)` when matched and the record is built, or the raised exception. -/
def processVEvent (src : Str) (ks : List Str) (v : VEvent) :
    Except PyErr (Option EventInfo) :=
  match attendeesListOf v.ATTENDEE with
  | .error e => .error e
  | .ok atts =>
    let matching := matchedKeywordsOf ks (pyStr v.SUMMARY) (pyStr v.DESCRIPTION) atts
    if matching.isEmpty then .ok none
    else
      match v.DTSTART with
      | none => .error .attrError
      | some st =>
        match v.DTEND with
        | none => .error .attrError
        | some en =>
          .ok (some
            { Event := pyStr v.SUMMARY
              Start := st
              End := en
              Guests := List.intercalate commaSpace atts
              Location := pyStr v.LOCATION
              UID := v.UID
              SourceFile := src
              MatchedKeywords := matching })

/-- `extract_events_by_keywords` over the file's VEVENT components, in order;
a raised exception aborts the whole file. -/
def extract_events_by_keywords (src : Str) (ks : List Str) :
    List VEvent → Except PyErr (List EventInfo)
  | [] => .ok []
  | v :: vs =>
    match processVEvent src ks v with
    | .error e => .error e
    | .ok none => extract_events_by_keywords src ks vs
    | .ok (some info) =>
      match extract_events_by_keywords src ks vs with
      | .error e => .error e
      | .ok rest => .ok (info :: rest)

/-- One iteration of the duplicate-detection loop (lines 81-89).  The state is
(insertion-ordered dict values, duplicate_count, duplicate_details increments). -/
def dedupStep (acc : List EventInfo × Nat × List (Str × Str)) (e : EventInfo) :
    List EventInfo × Nat × List (Str × Str) :=
  if acc.1.any (fun u => decide (u.UID = e.UID)) then
    (acc.1, acc.2.1 + 1, acc.2.2 ++ e.MatchedKeywords.map (fun k => (k, e.SourceFile)))
  else
    (acc.1 ++ [e], acc.2.1, acc.2.2)

/-- The `unique_events` dict values after the loop, in insertion order. -/
def dedupEvents (events : List EventInfo) : List EventInfo :=
  (events.foldl dedupStep ([], 0, [])).1

/-- Python string `<=`: lexicographic comparison by code point. -/
def strLe : Str → Str → Bool
  | [], _ => true
  | _ :: _, [] => false
  | a :: as, b :: bs =>
    if a < b then true
    else if b < a then false
    else strLe as bs

/-- Stable insertion of an event into a list sorted by `Start`. -/
def insertSorted (e : EventInfo) : List EventInfo → List EventInfo
  | [] => [e]
  | x :: xs => if strLe e.Start x.Start then e :: x :: xs else x :: insertSorted e xs

/-- Line 92, `sorted(unique_events.values(), key=lambda x: x['Start'])`:
Python's sort is stable, and a stable insertion sort computes the same
(unique) stable sorting. -/
def sortByStart (l : List EventInfo) : List EventInfo := l.foldr insertSorted []

/-- `remove_duplicates_and_sort_events` (lines 75-94): the sorted unique events,
the duplicate count, and the (keyword, source file) duplicate increments. -/
def remove_duplicates_and_sort_events (events : List EventInfo) :
    List EventInfo × Nat × List (Str × Str) :=
  let folded := events.foldl dedupStep ([], 0, [])
  (sortByStart folded.1, folded.2.1, folded.2.2)

/-- Lines 118-121: the final value of `keyword_count[k]` for a key `k` of the
dict is the total number of occurrences of `k` in the retained events'
`MatchedKeywords` lists. -/
def keywordCount (sortedEvents : List EventInfo) (k : Str) : Nat :=
  (sortedEvents.map (fun e => e.MatchedKeywords.count k)).sum

/-- Python `s.split(', ')`: left-to-right non-overlapping split on `", "`. -/
def pySplitCS : Str → List Str
  | [] => [[]]
  | [x] => [[x]]
  | x :: y :: rest =>
    if x = ',' ∧ y = ' ' then [] :: pySplitCS rest
    else
      match pySplitCS (y :: rest) with
      | [] => [[x]]
      | hh :: tt => (x :: hh) :: tt

/-- Line 154: `len(event['Guests'].split(', ')) if event['Guests'] else 0`. -/
def guestNumber (guests : Str) : Nat :=
  if guests.isEmpty then 0 else (pySplitCS guests).length

/-- Line 161: the CSV Guests cell, `'\n'.join(event['Guests'].split(', '))`. -/
def guestsCell (guests : Str) : Str :=
  List.intercalate ['\n'] (pySplitCS guests)

/-- Modelled from the spec: "the portion after its identifying scheme prefix"
of an attendee value, i.e. everything following the first `':'`.  Used only to
compare the code's extraction against the spec's description. -/
def afterScheme (s : Str) : Str :=
  (s.dropWhile (fun c => decide (c ≠ ':'))).tail

/-- Helper for reasoning about the dedup loop: keep the first occurrence of
each UID, tracking seen UIDs. -/
def keepFirstAux (seen : List (Option Str)) : List EventInfo → List EventInfo
  | [] => []
  | e :: es =>
    if e.UID ∈ seen then keepFirstAux seen es
    else e :: keepFirstAux (e.UID :: seen) es

/-! ### Substring and split lemmas -/

theorem containsSub_iff_infix (n h : Str) : containsSub n h = true ↔ n <:+: h := by
  induction h with
  | nil =>
    simp [containsSub, List.isPrefixOf_iff_prefix, List.prefix_nil, List.infix_nil]
  | cons x xs ih =>
    simp only [containsSub, Bool.or_eq_true, List.isPrefixOf_iff_prefix, ih]
    constructor
    · rintro (hp | hi)
      · exact hp.isInfix
      · exact List.infix_cons hi
    · rintro ⟨s, t, hst⟩
      cases s with
      | nil => exact Or.inl ⟨t, by simpa using hst⟩
      | cons y s' =>
        cases hst
        exact Or.inr ⟨s', t, rfl⟩

theorem splitOnChar_cons (c x : Char) (xs : Str) :
    splitOnChar c (x :: xs) =
      if x = c then [] :: splitOnChar c xs
      else
        match splitOnChar c xs with
        | [] => [[x]]
        | h :: t => (x :: h) :: t := rfl

theorem splitOnChar_ne_nil (c : Char) (s : Str) : splitOnChar c s ≠ [] := by
  induction s with
  | nil => simp [splitOnChar]
  | cons x xs ih =>
    simp only [splitOnChar]
    split
    · simp
    · cases h : splitOnChar c xs with
      | nil => simp
      | cons hh tt => simp

theorem splitOnChar_getzero (c : Char) (s : Str) :
    (splitOnChar c s)[0]? = some (s.takeWhile (fun x => decide (x ≠ c))) := by
  induction s with
  | nil => simp [splitOnChar]
  | cons x xs ih =>
    simp only [splitOnChar]
    by_cases hx : x = c
    · simp [hx]
    · simp only [if_neg hx]
      cases h : splitOnChar c xs with
      | nil => exact absurd h (splitOnChar_ne_nil c xs)
      | cons hh tt =>
        rw [h] at ih
        simp only [List.getElem?_cons_zero, Option.some.injEq] at ih
        simp [List.takeWhile_cons, hx, ih]

theorem splitOnChar_append (c : Char) (a rest : Str) (h : c ∉ a) :
    splitOnChar c (a ++ c :: rest) = a :: splitOnChar c rest := by
  induction a with
  | nil => simp [splitOnChar]
  | cons x a' ih =>
    have hx : x ≠ c := fun hxc => h (hxc ▸ List.mem_cons_self x a')
    have ih' := ih (fun hm => h (List.mem_cons_of_mem x hm))
    rw [List.cons_append, splitOnChar_cons, if_neg hx, ih']

theorem splitOnChar_not_mem (c : Char) (s : Str) (h : c ∉ s) : splitOnChar c s = [s] := by
  induction s with
  | nil => simp [splitOnChar]
  | cons x xs ih =>
    have hx : x ≠ c := fun hxc => h (hxc ▸ List.mem_cons_self x xs)
    have ih' := ih (fun hm => h (List.mem_cons_of_mem x hm))
    rw [splitOnChar_cons, if_neg hx, ih']

theorem dropWhile_colon (s : Str) (h : ':' ∈ s) :
    s.dropWhile (fun c => decide (c ≠ ':')) = ':' :: afterScheme s := by
  induction s with
  | nil => cases h
  | cons x xs ih =>
    by_cases hx : x = ':'
    · subst hx
      simp [afterScheme, List.dropWhile_cons]
    · have hmem : ':' ∈ xs := by
        rcases List.mem_cons.mp h with h1 | h1
        · exact absurd h1.symm hx
        · exact h1
      have : (fun c => decide (c ≠ ':')) x = true := by simpa using hx
      simp only [afterScheme, List.dropWhile_cons, this, if_pos rfl]
      exact ih hmem

theorem colon_not_mem_takeWhile (s : Str) :
    ':' ∉ s.takeWhile (fun c => decide (c ≠ ':')) := by
  intro hmem
  have := List.mem_takeWhile_imp hmem
  simp at this

theorem splitOnChar_colon_decompose (s : Str) (h : ':' ∈ s) :
    splitOnChar ':' s =
      s.takeWhile (fun c => decide (c ≠ ':')) :: splitOnChar ':' (afterScheme s) := by
  conv_lhs =>
    rw [← List.takeWhile_append_dropWhile (fun c => decide (c ≠ ':')) s,
      dropWhile_colon s h]
  exact splitOnChar_append ':' _ _ (colon_not_mem_takeWhile s)

/-! ### C6: the keyword match test -/

/-- C6: a keyword is in `matched_keywords` iff it is an input keyword and is a
case-insensitive substring of the title, or of the description, or of at least
one attendee identifier; in particular an event whose only match is inside an
attendee identifier is selected with that keyword in `matched_keywords`. -/
theorem c6_match_test (ks : List Str) (s d : Str) (atts : List Str) (k : Str) :
    k ∈ matchedKeywordsOf ks s d atts ↔
      k ∈ ks ∧ (lowerStr k <:+: lowerStr s ∨ lowerStr k <:+: lowerStr d ∨
        ∃ a ∈ atts, lowerStr k <:+: lowerStr a) := by
  simp only [matchedKeywordsOf, List.mem_filter, kwMatch, Bool.or_eq_true, occursIn,
    containsSub_iff_infix, List.any_eq_true, or_assoc]

/-! ### C7: attendee identifier extraction -/

/-- C7 fails as stated: for the attendee value `"mailto:user:ext"` the portion
after the scheme prefix is `"user:ext"`, but `split(':')[1]` extracts only
`"user"`, truncating at the second colon. -/
theorem c7_counterexample :
    ':' ∈ "mailto:user:ext".data ∧
    extractId "mailto:user:ext".data = some "user".data ∧
    afterScheme "mailto:user:ext".data = "user:ext".data ∧
    extractId "mailto:user:ext".data ≠ some (afterScheme "mailto:user:ext".data) := by
  refine ⟨by decide, by decide, by decide, by decide⟩

/-- C7 amended: for every attendee value containing `':'`, the extracted
identifier is the portion after the scheme prefix up to (and not including)
the next `':'`; it equals the entire portion after the prefix exactly when
that remainder contains no further `':'`. -/
theorem c7_attendee_extraction_amended (s : Str) (h : ':' ∈ s) :
    extractId s = some ((afterScheme s).takeWhile (fun c => decide (c ≠ ':'))) ∧
    (':' ∉ afterScheme s → extractId s = some (afterScheme s)) := by
  have h1 : extractId s = some ((afterScheme s).takeWhile (fun c => decide (c ≠ ':'))) := by
    rw [extractId, splitOnChar_colon_decompose s h, List.getElem?_cons_succ]
    exact splitOnChar_getzero ':' (afterScheme s)
  refine ⟨h1, fun hno => ?_⟩
  rw [h1]
  congr 1
  rw [List.takeWhile_eq_self_iff]
  intro x hx
  simp only [decide_eq_true_eq]
  exact fun hxc => hno (hxc ▸ hx)

theorem c7_witness :
    ':' ∈ "mailto:bob".data ∧
    extractId "mailto:bob".data = some (afterScheme "mailto:bob".data) :=
  ⟨by decide, (c7_attendee_extraction_amended "mailto:bob".data (by decide)).2 (by decide)⟩

/-! ### C10: totality of attendee extraction -/

theorem extractId_some_of_mem (s : Str) (h : ':' ∈ s) : ∃ r, extractId s = some r := by
  rw [extractId, splitOnChar_colon_decompose s h, List.getElem?_cons_succ]
  rw [splitOnChar_getzero ':' (afterScheme s)]
  exact ⟨_, rfl⟩

theorem extractId_none_of_not_mem (s : Str) (h : ':' ∉ s) : extractId s = none := by
  rw [extractId, splitOnChar_not_mem ':' s h]
  rfl

theorem extractIds_error_of_bad (vals : List Str) (h : ∃ a ∈ vals, ':' ∉ a) :
    extractIds vals = .error .indexError := by
  induction vals with
  | nil => simp at h
  | cons a as ih =>
    by_cases ha : ':' ∈ a
    · obtain ⟨r, hr⟩ := extractId_some_of_mem a ha
      have hbad : ∃ b ∈ as, ':' ∉ b := by
        rcases h with ⟨b, hb, hbc⟩
        rcases List.mem_cons.mp hb with rfl | hb'
        · exact absurd ha hbc
        · exact ⟨b, hb', hbc⟩
      rw [extractIds, hr, ih hbad]
    · rw [extractIds, extractId_none_of_not_mem a ha]

theorem processVEvent_error_of_bad (src : Str) (ks : List Str) (v : VEvent)
    (vals : List Str) (hA : v.ATTENDEE = some vals) (h : ∃ a ∈ vals, ':' ∉ a) :
    processVEvent src ks v = .error .indexError := by
  have hne : vals ≠ [] := by rintro rfl; simp at h
  have : attendeesListOf v.ATTENDEE = .error .indexError := by
    rw [hA, attendeesListOf, if_neg (by simpa using hne)]
    exact extractIds_error_of_bad vals h
  rw [processVEvent, this]

theorem extract_error_of_mem (src : Str) (ks : List Str) (file : List VEvent)
    (v : VEvent) (hv : v ∈ file) (vals : List Str) (hA : v.ATTENDEE = some vals)
    (h : ∃ a ∈ vals, ':' ∉ a) :
    ∃ err, extract_events_by_keywords src ks file = .error err := by
  induction file with
  | nil => cases hv
  | cons f fs ih =>
    rcases List.mem_cons.mp hv with heq | hv'
    · subst heq
      exact ⟨.indexError, by
        rw [extract_events_by_keywords, processVEvent_error_of_bad src ks _ vals hA h]⟩
    · obtain ⟨err, herr⟩ := ih hv'
      rw [extract_events_by_keywords]
      cases hf : processVEvent src ks f with
      | error e => exact ⟨e, rfl⟩
      | ok o =>
        cases o with
        | none => exact ⟨err, herr⟩
        | some info =>
          rw [herr]
          exact ⟨err, rfl⟩

/-- C10: for every attendee value containing `':'`, element 1 of the colon
split exists and extraction succeeds; for a value with no `':'`, the index is
out of range (modelled as `none`), and the extractor fails with an IndexError
on any file containing such an event, returning no records for that file. -/
theorem c10_attendee_totality (s : Str) (src : Str) (ks : List Str) (v : VEvent)
    (vals : List Str) (file : List VEvent) :
    (':' ∈ s → ∃ r, extractId s = some r) ∧
    (':' ∉ s → extractId s = none) ∧
    (v.ATTENDEE = some vals → (∃ a ∈ vals, ':' ∉ a) → v ∈ file →
      processVEvent src ks v = .error .indexError ∧
      ∃ err, extract_events_by_keywords src ks file = .error err) :=
  ⟨extractId_some_of_mem s, extractId_none_of_not_mem s,
    fun hA h hv =>
      ⟨processVEvent_error_of_bad src ks v vals hA h,
        extract_error_of_mem src ks file v hv vals hA h⟩⟩

/-! ### Deduplication lemmas -/

theorem dedupStep_pos (u : List EventInfo) (c : Nat) (d : List (Str × Str)) (e : EventInfo)
    (h : u.any (fun x => decide (x.UID = e.UID)) = true) :
    dedupStep (u, c, d) e =
      (u, c + 1, d ++ e.MatchedKeywords.map (fun k => (k, e.SourceFile))) := by
  simp [dedupStep, h]

theorem dedupStep_neg (u : List EventInfo) (c : Nat) (d : List (Str × Str)) (e : EventInfo)
    (h : ¬ u.any (fun x => decide (x.UID = e.UID)) = true) :
    dedupStep (u, c, d) e = (u ++ [e], c, d) := by
  simp [dedupStep, h]

theorem any_uid_eq (u : List EventInfo) (e : EventInfo) :
    u.any (fun x => decide (x.UID = e.UID)) = true ↔
      e.UID ∈ u.map (fun x => x.UID) := by
  rw [List.any_eq_true]
  constructor
  · rintro ⟨x, hx, hdec⟩
    exact List.mem_map.mpr ⟨x, hx, of_decide_eq_true hdec⟩
  · intro hmem
    obtain ⟨x, hx, hfx⟩ := List.mem_map.mp hmem
    exact ⟨x, hx, decide_eq_true hfx⟩

theorem keepFirstAux_congr : ∀ (l : List EventInfo) (seen seen' : List (Option Str)),
    (∀ z, z ∈ seen ↔ z ∈ seen') → keepFirstAux seen l = keepFirstAux seen' l := by
  intro l
  induction l with
  | nil => intro seen seen' _; rfl
  | cons e es ih =>
    intro seen seen' h
    by_cases he : e.UID ∈ seen
    · rw [keepFirstAux, keepFirstAux, if_pos he, if_pos ((h _).mp he)]
      exact ih seen seen' h
    · rw [keepFirstAux, keepFirstAux, if_neg he, if_neg (fun hx => he ((h _).mpr hx))]
      rw [ih (e.UID :: seen) (e.UID :: seen') (by intro z; simp [h z])]

theorem foldl_dedupStep_fst (l : List EventInfo) :
    ∀ (u : List EventInfo) (c : Nat) (d : List (Str × Str)),
    (l.foldl dedupStep (u, c, d)).1 = u ++ keepFirstAux (u.map (fun x => x.UID)) l := by
  induction l with
  | nil => intro u c d; simp [keepFirstAux]
  | cons e es ih =>
    intro u c d
    rw [List.foldl_cons]
    by_cases h : u.any (fun x => decide (x.UID = e.UID)) = true
    · rw [dedupStep_pos u c d e h, ih]
      rw [keepFirstAux, if_pos ((any_uid_eq u e).mp h)]
    · rw [dedupStep_neg u c d e h, ih]
      rw [keepFirstAux, if_neg (fun hm => h ((any_uid_eq u e).mpr hm))]
      have hmap : (u ++ [e]).map (fun x => x.UID) =
          u.map (fun x => x.UID) ++ [e.UID] := by simp
      rw [hmap,
        keepFirstAux_congr es (u.map (fun x => x.UID) ++ [e.UID])
          (e.UID :: u.map (fun x => x.UID)) (by intro z; simp [or_comm])]
      simp

theorem foldl_dedupStep_count (l : List EventInfo) :
    ∀ (u : List EventInfo) (c : Nat) (d : List (Str × Str)),
    (l.foldl dedupStep (u, c, d)).1.length + (l.foldl dedupStep (u, c, d)).2.1 =
      u.length + c + l.length := by
  induction l with
  | nil => intro u c d; simp
  | cons e es ih =>
    intro u c d
    rw [List.foldl_cons]
    by_cases h : u.any (fun x => decide (x.UID = e.UID)) = true
    · rw [dedupStep_pos u c d e h, ih]
      simp only [List.length_cons]
      omega
    · rw [dedupStep_neg u c d e h, ih]
      simp only [List.length_append, List.length_cons, List.length_nil]
      omega

theorem dedupEvents_eq (events : List EventInfo) :
    dedupEvents events = keepFirstAux [] events := by
  rw [dedupEvents, foldl_dedupStep_fst]
  rfl

theorem keepFirstAux_spec : ∀ (l : List EventInfo) (seen : List (Option Str)) (e : EventInfo),
    e ∈ keepFirstAux seen l →
      e.UID ∉ seen ∧ ∃ pre post, l = pre ++ e :: post ∧ ∀ x ∈ pre, x.UID ≠ e.UID := by
  intro l
  induction l with
  | nil => intro seen e h; cases h
  | cons f fs ih =>
    intro seen e h
    rw [keepFirstAux] at h
    by_cases hf : f.UID ∈ seen
    · rw [if_pos hf] at h
      obtain ⟨hnot, pre, post, hsplit, hpre⟩ := ih seen e h
      refine ⟨hnot, f :: pre, post, by rw [hsplit]; rfl, ?_⟩
      intro x hx
      rcases List.mem_cons.mp hx with rfl | hx'
      · exact fun hEq => hnot (hEq ▸ hf)
      · exact hpre x hx'
    · rw [if_neg hf] at h
      rcases List.mem_cons.mp h with rfl | h'
      · exact ⟨hf, [], fs, rfl, by intro x hx; cases hx⟩
      · obtain ⟨hnot, pre, post, hsplit, hpre⟩ := ih (f.UID :: seen) e h'
        have hne : e.UID ∉ seen := fun hs => hnot (List.mem_cons_of_mem _ hs)
        have hfe : f.UID ≠ e.UID := fun hEq => hnot (hEq ▸ List.mem_cons_self _ _)
        refine ⟨hne, f :: pre, post, by rw [hsplit]; rfl, ?_⟩
        intro x hx
        rcases List.mem_cons.mp hx with rfl | hx'
        · exact hfe
        · exact hpre x hx'

theorem keepFirstAux_pairwise : ∀ (l : List EventInfo) (seen : List (Option Str)),
    (keepFirstAux seen l).Pairwise (fun a b => a.UID ≠ b.UID) := by
  intro l
  induction l with
  | nil => intro seen; exact List.Pairwise.nil
  | cons f fs ih =>
    intro seen
    rw [keepFirstAux]
    by_cases hf : f.UID ∈ seen
    · rw [if_pos hf]; exact ih seen
    · rw [if_neg hf]
      refine List.Pairwise.cons ?_ (ih _)
      intro b hb
      have hb' := (keepFirstAux_spec fs (f.UID :: seen) b hb).1
      exact fun hEq => hb' (List.mem_cons.mpr (Or.inl hEq.symm))

theorem keepFirstAux_cover : ∀ (l : List EventInfo) (seen : List (Option Str)) (x : EventInfo),
    x ∈ l → x.UID ∉ seen → ∃ u ∈ keepFirstAux seen l, u.UID = x.UID := by
  intro l
  induction l with
  | nil => intro seen x hx; cases hx
  | cons f fs ih =>
    intro seen x hx hns
    rw [keepFirstAux]
    by_cases hf : f.UID ∈ seen
    · rw [if_pos hf]
      rcases List.mem_cons.mp hx with rfl | hx'
      · exact absurd hf hns
      · exact ih seen x hx' hns
    · rw [if_neg hf]
      by_cases hux : x.UID = f.UID
      · exact ⟨f, List.mem_cons_self _ _, hux.symm⟩
      · rcases List.mem_cons.mp hx with rfl | hx'
        · exact absurd rfl hux
        · obtain ⟨u, hu, huid⟩ := ih (f.UID :: seen) x hx' (by
            intro hmem
            rcases List.mem_cons.mp hmem with h1 | h1
            · exact hux h1
            · exact hns h1)
          exact ⟨u, List.mem_cons_of_mem f hu, huid⟩

theorem keepFirstAux_retain : ∀ (l : List EventInfo) (seen : List (Option Str)) (e : EventInfo),
    e ∈ l → e.UID ∉ seen → (∀ x ∈ l, x.UID = e.UID → x = e) →
      e ∈ keepFirstAux seen l := by
  intro l
  induction l with
  | nil => intro seen e he; cases he
  | cons f fs ih =>
    intro seen e he hns huniq
    rw [keepFirstAux]
    by_cases hf : f.UID ∈ seen
    · rw [if_pos hf]
      rcases List.mem_cons.mp he with rfl | he'
      · exact absurd hf hns
      · exact ih seen e he' hns (fun x hx => huniq x (List.mem_cons_of_mem f hx))
    · rw [if_neg hf]
      by_cases hef : e = f
      · rw [hef]; exact List.mem_cons_self _ _
      · have he' : e ∈ fs := by
          rcases List.mem_cons.mp he with h1 | h1
          · exact absurd h1 hef
          · exact h1
        have hnsf : e.UID ∉ f.UID :: seen := by
          intro hmem
          rcases List.mem_cons.mp hmem with h1 | h1
          · exact hef ((huniq f (List.mem_cons_self f fs) h1.symm).symm)
          · exact hns h1
        exact List.mem_cons_of_mem f
          (ih (f.UID :: seen) e he' hnsf (fun x hx => huniq x (List.mem_cons_of_mem f hx)))

/-! ### Sorting lemmas -/

theorem strLe_refl (s : Str) : strLe s s = true := by
  induction s with
  | nil => rfl
  | cons a as ih => rw [strLe, if_neg (lt_irrefl a), if_neg (lt_irrefl a)]; exact ih

theorem strLe_total (a b : Str) : strLe a b = true ∨ strLe b a = true := by
  induction a generalizing b with
  | nil => exact Or.inl rfl
  | cons x xs ih =>
    cases b with
    | nil => exact Or.inr rfl
    | cons y ys =>
      rcases lt_trichotomy x y with h | h | h
      · left; rw [strLe, if_pos h]
      · subst h
        rcases ih ys with h1 | h1
        · left; rw [strLe, if_neg (lt_irrefl x), if_neg (lt_irrefl x)]; exact h1
        · right; rw [strLe, if_neg (lt_irrefl x), if_neg (lt_irrefl x)]; exact h1
      · right; rw [strLe, if_pos h]

theorem strLe_trans (a b c : Str) (h1 : strLe a b = true) (h2 : strLe b c = true) :
    strLe a c = true := by
  induction a generalizing b c with
  | nil => rfl
  | cons x xs ih =>
    cases b with
    | nil => rw [strLe] at h1; cases h1
    | cons y ys =>
      cases c with
      | nil => rw [strLe] at h2; cases h2
      | cons z zs =>
        rw [strLe] at h1 h2 ⊢
        by_cases hxy : x < y
        · by_cases hyz : y < z
          · rw [if_pos (hxy.trans hyz)]
          · rw [if_neg hyz] at h2
            by_cases hzy : z < y
            · rw [if_pos hzy] at h2; cases h2
            · have : y = z := le_antisymm (le_of_not_lt hzy) (le_of_not_lt hyz)
              rw [if_pos (this ▸ hxy)]
        · rw [if_neg hxy] at h1
          by_cases hyx : y < x
          · rw [if_pos hyx] at h1; cases h1
          · have hxey : x = y := le_antisymm (le_of_not_lt hyx) (le_of_not_lt hxy)
            rw [if_neg hyx] at h1
            subst hxey
            by_cases hyz : x < z
            · rw [if_pos hyz]
            · rw [if_neg hyz] at h2 ⊢
              by_cases hzy : z < x
              · rw [if_pos hzy] at h2; cases h2
              · rw [if_neg hzy] at h2 ⊢
                exact ih ys zs h1 h2

theorem insertSorted_perm (e : EventInfo) (l : List EventInfo) :
    (insertSorted e l).Perm (e :: l) := by
  induction l with
  | nil => exact List.Perm.refl _
  | cons x xs ih =>
    rw [insertSorted]
    by_cases h : strLe e.Start x.Start
    · rw [if_pos h]
    · rw [if_neg h]
      exact (List.Perm.cons x ih).trans (List.Perm.swap e x xs)

theorem sortByStart_perm (l : List EventInfo) : (sortByStart l).Perm l := by
  induction l with
  | nil => exact List.Perm.refl _
  | cons x xs ih =>
    exact (insertSorted_perm x (sortByStart xs)).trans (List.Perm.cons x ih)

theorem sortByStart_length (l : List EventInfo) : (sortByStart l).length = l.length :=
  (sortByStart_perm l).length_eq

theorem insertSorted_pairwise (e : EventInfo) (l : List EventInfo)
    (h : l.Pairwise (fun a b => strLe a.Start b.Start = true)) :
    (insertSorted e l).Pairwise (fun a b => strLe a.Start b.Start = true) := by
  induction l with
  | nil => exact List.pairwise_singleton _ _
  | cons x xs ih =>
    rcases List.pairwise_cons.mp h with ⟨hx, hxs⟩
    rw [insertSorted]
    by_cases hc : strLe e.Start x.Start
    · rw [if_pos hc]
      refine List.Pairwise.cons ?_ h
      intro b hb
      rcases List.mem_cons.mp hb with rfl | hb'
      · exact hc
      · exact strLe_trans _ _ _ hc (hx b hb')
    · rw [if_neg hc]
      have hxe : strLe x.Start e.Start = true := by
        rcases strLe_total e.Start x.Start with h1 | h1
        · exact absurd h1 hc
        · exact h1
      refine List.Pairwise.cons ?_ (ih hxs)
      intro b hb
      have hb2 : b ∈ e :: xs := (insertSorted_perm e xs).mem_iff.mp hb
      rcases List.mem_cons.mp hb2 with rfl | hb'
      · exact hxe
      · exact hx b hb'

theorem sortByStart_pairwise (l : List EventInfo) :
    (sortByStart l).Pairwise (fun a b => strLe a.Start b.Start = true) := by
  induction l with
  | nil => exact List.Pairwise.nil
  | cons x xs ih => exact insertSorted_pairwise x (sortByStart xs) ih

theorem insertSorted_filter (s : Str) (e : EventInfo) (l : List EventInfo) :
    (insertSorted e l).filter (fun x => decide (x.Start = s)) =
      if e.Start = s then e :: l.filter (fun x => decide (x.Start = s))
      else l.filter (fun x => decide (x.Start = s)) := by
  induction l with
  | nil =>
    by_cases he : e.Start = s
    · simp [insertSorted, List.filter, he]
    · simp [insertSorted, List.filter, he]
  | cons x xs ih =>
    rw [insertSorted]
    by_cases hc : strLe e.Start x.Start
    · rw [if_pos hc]
      by_cases he : e.Start = s
      · simp [List.filter_cons, he]
      · simp [List.filter_cons, he]
    · rw [if_neg hc]
      rw [List.filter_cons, ih]
      by_cases he : e.Start = s
      · have hx : ¬ x.Start = s := by
          intro hxs
          apply hc
          have hex : e.Start = x.Start := he.trans hxs.symm
          rw [hex]
          exact strLe_refl _
        simp [he, hx, List.filter_cons]
      · by_cases hx : x.Start = s
        · simp [he, hx, List.filter_cons]
        · simp [he, hx, List.filter_cons]

theorem sortByStart_filter (s : Str) (l : List EventInfo) :
    (sortByStart l).filter (fun x => decide (x.Start = s)) =
      l.filter (fun x => decide (x.Start = s)) := by
  induction l with
  | nil => rfl
  | cons x xs ih =>
    have hdef : sortByStart (x :: xs) = insertSorted x (sortByStart xs) := rfl
    rw [hdef, insertSorted_filter, ih, List.filter_cons]
    by_cases hx : x.Start = s
    · simp [hx]
    · simp [hx]

/-! ### C3, C4, C5, C9: the Deduplicator/Sorter -/

theorem rm_fst_eq (events : List EventInfo) :
    (remove_duplicates_and_sort_events events).1 = sortByStart (dedupEvents events) := rfl

theorem rm_fst_perm (events : List EventInfo) :
    ((remove_duplicates_and_sort_events events).1).Perm (keepFirstAux [] events) := by
  rw [rm_fst_eq, dedupEvents_eq]
  exact sortByStart_perm _

/-- C3: for every input list of matched events, the output count is at most the
input count and the returned duplicate count equals input count minus output
count. -/
theorem c3_dedup_counts (events : List EventInfo) :
    (remove_duplicates_and_sort_events events).1.length ≤ events.length ∧
    (remove_duplicates_and_sort_events events).2.1 =
      events.length - (remove_duplicates_and_sort_events events).1.length := by
  have h := foldl_dedupStep_count events [] 0 []
  have hlen : (remove_duplicates_and_sort_events events).1.length =
      (events.foldl dedupStep ([], 0, [])).1.length := by
    rw [rm_fst_eq]
    exact sortByStart_length _
  have hcnt : (remove_duplicates_and_sort_events events).2.1 =
      (events.foldl dedupStep ([], 0, [])).2.1 := rfl
  simp only [List.length_nil] at h
  constructor
  · rw [hlen]; omega
  · rw [hlen, hcnt]; omega

/-- C4: after deduplication the output `unique_id` values are pairwise distinct;
every retained record is the first occurrence of its `unique_id` in input
order; and every input record's `unique_id` is represented by a retained
record (later records sharing a retained `unique_id` are the discarded ones,
whose number is accounted by C3). -/
theorem c4_first_occurrence_wins (events : List EventInfo) :
    (remove_duplicates_and_sort_events events).1.Pairwise (fun a b => a.UID ≠ b.UID) ∧
    (∀ e, e ∈ (remove_duplicates_and_sort_events events).1 →
      ∃ pre post, events = pre ++ e :: post ∧ ∀ x ∈ pre, x.UID ≠ e.UID) ∧
    (∀ x, x ∈ events →
      ∃ u ∈ (remove_duplicates_and_sort_events events).1, u.UID = x.UID) := by
  have hperm := rm_fst_perm events
  refine ⟨?_, ?_, ?_⟩
  · exact (hperm.pairwise_iff (fun h hEq => h hEq.symm)).mpr
      (keepFirstAux_pairwise events [])
  · intro e he
    obtain ⟨_, pre, post, hs, hp⟩ :=
      keepFirstAux_spec events [] e (hperm.mem_iff.mp he)
    exact ⟨pre, post, hs, hp⟩
  · intro x hx
    obtain ⟨u, hu, huid⟩ := keepFirstAux_cover events [] x hx (by simp)
    exact ⟨u, hperm.mem_iff.mpr hu, huid⟩

/-- C5: the output is sorted ascending by the start string under lexicographic
comparison, and events with equal start preserve their relative first-seen
(post-deduplication) order: filtering the output and the deduplicated input by
any fixed start value yields the same list. -/
theorem c5_sorted_stable (events : List EventInfo) :
    List.Chain' (fun a b => strLe a.Start b.Start = true)
      (remove_duplicates_and_sort_events events).1 ∧
    ∀ s : Str,
      (remove_duplicates_and_sort_events events).1.filter (fun e => decide (e.Start = s)) =
        (dedupEvents events).filter (fun e => decide (e.Start = s)) := by
  constructor
  · rw [rm_fst_eq]
    exact (sortByStart_pairwise _).chain'
  · intro s
    rw [rm_fst_eq]
    exact sortByStart_filter s (dedupEvents events)

/-- C9: the deduplication key is the literal `UID` value (`None`/empty string
included): an event whose literal key no other input event shares is always
retained, i.e. events are only ever collapsed with events carrying an
identical literal key. -/
theorem c9_literal_key (events : List EventInfo) (e : EventInfo) (he : e ∈ events)
    (huniq : ∀ x ∈ events, x.UID = e.UID → x = e) :
    e ∈ (remove_duplicates_and_sort_events events).1 :=
  (rm_fst_perm events).mem_iff.mpr
    (keepFirstAux_retain events [] e he (by simp) huniq)

/-! ### Concrete events for witnesses and counterexamples -/

def evA : EventInfo :=
  { Event := "Weekly Meeting".data
    Start := "2024-01-02 10:00".data
    End := "2024-01-02 11:00".data
    Guests := []
    Location := "Room 1".data
    UID := some "uid-1".data
    SourceFile := "a.ics".data
    MatchedKeywords := ["Meeting".data] }

def evB : EventInfo :=
  { Event := "Meeting copy".data
    Start := "2024-01-01 09:00".data
    End := "2024-01-01 09:30".data
    Guests := []
    Location := "Room 2".data
    UID := some "uid-1".data
    SourceFile := "b.ics".data
    MatchedKeywords := ["Meeting".data] }

def evC : EventInfo :=
  { Event := "No uid event".data
    Start := "2024-02-01 08:00".data
    End := "2024-02-01 09:00".data
    Guests := []
    Location := []
    UID := none
    SourceFile := "c.ics".data
    MatchedKeywords := ["Meeting".data] }

def evD : EventInfo :=
  { Event := "Empty uid event".data
    Start := "2024-02-02 08:00".data
    End := "2024-02-02 09:00".data
    Guests := []
    Location := []
    UID := some []
    SourceFile := "d.ics".data
    MatchedKeywords := ["Meeting".data] }

theorem c4_witness :
    (remove_duplicates_and_sort_events [evA, evB]).1.Pairwise
      (fun a b => a.UID ≠ b.UID) ∧
    (∃ pre post, [evA, evB] = pre ++ evA :: post ∧ ∀ x ∈ pre, x.UID ≠ evA.UID) :=
  ⟨(c4_first_occurrence_wins [evA, evB]).1,
    (c4_first_occurrence_wins [evA, evB]).2.1 evA (by decide)⟩

theorem c9_witness :
    evC ∈ (remove_duplicates_and_sort_events [evC, evD]).1 ∧
    evD ∈ (remove_duplicates_and_sort_events [evC, evD]).1 :=
  ⟨c9_literal_key [evC, evD] evC (by decide) (by decide),
    c9_literal_key [evC, evD] evD (by decide) (by decide)⟩

/-! ### C1: missing optional fields -/

/-- C1 fails as stated: the absent description is not treated as the empty
string but as the placeholder string `"None"` (Python `str(None)`), and the
keyword `"none"` matches an event whose description is absent even though it
occurs neither in the title nor in any attendee identifier. -/
theorem c1_counterexample :
    pyStr none ≠ ([] : Str) ∧
    occursIn "none".data "Standup".data = false ∧
    matchedKeywordsOf ["none".data] (pyStr (some "Standup".data)) (pyStr none) [] =
      ["none".data] :=
  ⟨by decide, by decide, by decide⟩

/-- C1 amended: an absent attendee list is treated as the empty sequence and an
absent description as the placeholder string `"None"`; neither absence is
fatal (the record is still produced or the event skipped, never an error);
consequently any input keyword that is a case-insensitive substring of
`"None"` matches an event with absent description. -/
theorem c1_missing_fields_amended (v : VEvent) (src : Str) (ks : List Str)
    (st en : Str) (hd : v.DESCRIPTION = none) (ha : v.ATTENDEE = none)
    (hst : v.DTSTART = some st) (hen : v.DTEND = some en) :
    attendeesListOf v.ATTENDEE = .ok [] ∧
    pyStr v.DESCRIPTION = noneStr ∧
    (∀ k ∈ ks, occursIn k noneStr = true →
      k ∈ matchedKeywordsOf ks (pyStr v.SUMMARY) (pyStr v.DESCRIPTION) []) ∧
    (∃ r, processVEvent src ks v = .ok r) := by
  have h1 : attendeesListOf v.ATTENDEE = .ok [] := by rw [ha]; rfl
  have h2 : pyStr v.DESCRIPTION = noneStr := by rw [hd]; rfl
  refine ⟨h1, h2, ?_, ?_⟩
  · intro k hk hocc
    apply List.mem_filter.mpr
    refine ⟨hk, ?_⟩
    rw [h2]
    simp [kwMatch, hocc]
  · rw [processVEvent, h1]
    dsimp only
    by_cases hm : (matchedKeywordsOf ks (pyStr v.SUMMARY) (pyStr v.DESCRIPTION) []).isEmpty
    · exact ⟨none, by rw [if_pos hm]⟩
    · refine ⟨some
        { Event := pyStr v.SUMMARY
          Start := st
          End := en
          Guests := List.intercalate commaSpace []
          Location := pyStr v.LOCATION
          UID := v.UID
          SourceFile := src
          MatchedKeywords :=
            matchedKeywordsOf ks (pyStr v.SUMMARY) (pyStr v.DESCRIPTION) [] }, ?_⟩
      rw [if_neg hm, hst, hen]

def vNoDesc : VEvent :=
  { SUMMARY := some "Standup".data
    DESCRIPTION := none
    ATTENDEE := none
    DTSTART := some "2024-03-01 09:00".data
    DTEND := some "2024-03-01 09:15".data
    LOCATION := none
    UID := some "uid-9".data }

theorem c1_witness :
    attendeesListOf vNoDesc.ATTENDEE = .ok [] ∧
    pyStr vNoDesc.DESCRIPTION = noneStr ∧
    "none".data ∈ matchedKeywordsOf ["none".data] (pyStr vNoDesc.SUMMARY)
      (pyStr vNoDesc.DESCRIPTION) [] ∧
    (∃ r, processVEvent "f.ics".data ["none".data] vNoDesc = .ok r) := by
  obtain ⟨h1, h2, h3, h4⟩ := c1_missing_fields_amended vNoDesc "f.ics".data
    ["none".data] "2024-03-01 09:00".data "2024-03-01 09:15".data rfl rfl rfl rfl
  exact ⟨h1, h2, h3 "none".data (by decide) (by decide), h4⟩

/-! ### C2: per-keyword match counts -/

def vDup : VEvent :=
  { SUMMARY := some "alpha".data
    DESCRIPTION := some []
    ATTENDEE := none
    DTSTART := some "2024-01-01 09:00".data
    DTEND := some "2024-01-01 10:00".data
    LOCATION := some []
    UID := some "u1".data }

def evDup : EventInfo :=
  { Event := "alpha".data
    Start := "2024-01-01 09:00".data
    End := "2024-01-01 10:00".data
    Guests := []
    Location := []
    UID := some "u1".data
    SourceFile := "f.ics".data
    MatchedKeywords := ["a".data, "a".data] }

/-- C2 fails as stated when the input keyword list contains duplicates: with
keywords `["a", "a"]` a single retained event matching `"a"` is reported with
count 2 (the dict loop increments once per occurrence in `matched_keywords`),
while only one retained event has `"a"` in `matched_keywords`. -/
theorem c2_counterexample :
    extract_events_by_keywords "f.ics".data ["a".data, "a".data] [vDup] = .ok [evDup] ∧
    keywordCount (remove_duplicates_and_sort_events [evDup]).1 "a".data = 2 ∧
    List.countP (fun e => decide ("a".data ∈ e.MatchedKeywords))
      (remove_duplicates_and_sort_events [evDup]).1 = 1 :=
  ⟨rfl, by decide, by decide⟩

theorem count_nodup_str (k : Str) : ∀ (l : List Str), l.Nodup →
    l.count k = if k ∈ l then 1 else 0 := by
  intro l
  induction l with
  | nil => intro _; rfl
  | cons a t iht =>
    intro hnd
    rcases List.nodup_cons.mp hnd with ⟨hna, hndt⟩
    rw [List.count_cons, iht hndt]
    by_cases hka : a = k
    · subst hka
      simp [hna]
    · have hbeq : (a == k) = false := by simp [hka]
      simp [hbeq, List.mem_cons, Ne.symm hka]

/-- C2 amended: the reported per-keyword count equals the total number of
occurrences of the keyword over the retained events' `matched_keywords`
lists; when the input keyword list has no duplicate entries this equals the
number of retained events whose `matched_keywords` contains the keyword. -/
theorem c2_keyword_count_amended (ks : List Str) (evs : List EventInfo) (k : Str)
    (hks : ks.Nodup) (hsub : ∀ e ∈ evs, e.MatchedKeywords.Sublist ks) :
    keywordCount evs k = evs.countP (fun e => decide (k ∈ e.MatchedKeywords)) := by
  induction evs with
  | nil => rfl
  | cons e es ih =>
    have hsub' : ∀ x ∈ es, x.MatchedKeywords.Sublist ks :=
      fun x hx => hsub x (List.mem_cons_of_mem e hx)
    have hnd : e.MatchedKeywords.Nodup :=
      (hsub e (List.mem_cons_self e es)).nodup hks
    have hcount := count_nodup_str k e.MatchedKeywords hnd
    have ih' := ih hsub'
    simp only [keywordCount, List.map_cons, List.sum_cons] at ih' ⊢
    rw [List.countP_cons, ih', hcount]
    by_cases hk : k ∈ e.MatchedKeywords
    · simp [hk, Nat.add_comm]
    · simp [hk]

theorem c2_witness :
    ["Meeting".data].Nodup ∧
    keywordCount [evA] "Meeting".data =
      List.countP (fun e => decide ("Meeting".data ∈ e.MatchedKeywords)) [evA] :=
  ⟨by decide,
    c2_keyword_count_amended ["Meeting".data] [evA] "Meeting".data (by decide)
      (by
        intro e he
        rcases List.mem_cons.mp he with rfl | h
        · exact List.Sublist.refl _
        · cases h)⟩

/-! ### C8: the CSV guest number and guests cell -/

theorem pySplitCS_cons2 (x y : Char) (rest : Str) :
    pySplitCS (x :: y :: rest) =
      if x = ',' ∧ y = ' ' then [] :: pySplitCS rest
      else
        match pySplitCS (y :: rest) with
        | [] => [[x]]
        | hh :: tt => (x :: hh) :: tt := rfl

theorem pySplitCS_ne_nil : ∀ s : Str, pySplitCS s ≠ [] := by
  intro s
  induction s with
  | nil => simp [pySplitCS]
  | cons x xs ih =>
    cases xs with
    | nil => simp [pySplitCS]
    | cons y rest =>
      rw [pySplitCS_cons2]
      by_cases h : x = ',' ∧ y = ' '
      · rw [if_pos h]; simp
      · rw [if_neg h]
        cases hp : pySplitCS (y :: rest) with
        | nil => exact absurd hp ih
        | cons hh tt => simp

theorem pySplitCS_eq_single : ∀ a : Str, ¬ commaSpace <:+: a → pySplitCS a = [a] := by
  intro a
  induction a with
  | nil => intro _; rfl
  | cons x xs ih =>
    intro h
    cases xs with
    | nil => rfl
    | cons y rest =>
      rw [pySplitCS_cons2]
      have hxy : ¬ (x = ',' ∧ y = ' ') := by
        rintro ⟨rfl, rfl⟩
        exact h ⟨[], rest, rfl⟩
      rw [if_neg hxy]
      have hxs : ¬ commaSpace <:+: (y :: rest) := fun hc => h (List.infix_cons hc)
      rw [ih hxs]

theorem pySplitCS_append : ∀ (a : Str) (rest : Str), ¬ commaSpace <:+: a →
    pySplitCS (a ++ commaSpace ++ rest) = a :: pySplitCS rest := by
  intro a
  induction a with
  | nil =>
    intro rest _
    show pySplitCS (',' :: ' ' :: rest) = [] :: pySplitCS rest
    rw [pySplitCS_cons2, if_pos ⟨rfl, rfl⟩]
  | cons x a' ih =>
    intro rest h
    cases a' with
    | nil =>
      show pySplitCS (x :: ',' :: ' ' :: rest) = [x] :: pySplitCS rest
      rw [pySplitCS_cons2]
      have hxy : ¬ (x = ',' ∧ (',' : Char) = ' ') := by
        rintro ⟨_, h2⟩
        cases h2
      rw [if_neg hxy]
      rw [show pySplitCS (',' :: ' ' :: rest) = [] :: pySplitCS rest from by
        rw [pySplitCS_cons2, if_pos ⟨rfl, rfl⟩]]
    | cons z a'' =>
      show pySplitCS (x :: z :: (a'' ++ commaSpace ++ rest)) =
        (x :: z :: a'') :: pySplitCS rest
      rw [pySplitCS_cons2]
      have hxz : ¬ (x = ',' ∧ z = ' ') := by
        rintro ⟨rfl, rfl⟩
        exact h ⟨[], a'', rfl⟩
      rw [if_neg hxz]
      have hzin : ¬ commaSpace <:+: (z :: a'') := fun hc => h (List.infix_cons hc)
      have hrec := ih rest hzin
      rw [show ((z :: a'') ++ commaSpace ++ rest) =
        (z :: (a'' ++ commaSpace ++ rest)) from by simp] at hrec
      rw [hrec]

theorem pySplitCS_intercalate : ∀ l : List Str, l ≠ [] →
    (∀ a ∈ l, ¬ commaSpace <:+: a) →
    pySplitCS (List.intercalate commaSpace l) = l := by
  intro l
  induction l with
  | nil => intro h; cases h rfl
  | cons a t ih =>
    intro _ hall
    cases t with
    | nil =>
      have h1 : List.intercalate commaSpace [a] = a := by
        simp [List.intercalate]
      rw [h1]
      exact pySplitCS_eq_single a (hall a (List.mem_cons_self a []))
    | cons b t' =>
      have h1 : List.intercalate commaSpace (a :: b :: t') =
          a ++ commaSpace ++ List.intercalate commaSpace (b :: t') := by
        simp [List.intercalate, List.intersperse]
      rw [h1, pySplitCS_append a _ (hall a (List.mem_cons_self a (b :: t'))),
        ih (by simp) (fun x hx => hall x (List.mem_cons_of_mem a hx))]

def vGuests : VEvent :=
  { SUMMARY := some "alpha".data
    DESCRIPTION := some []
    ATTENDEE := some ["mailto:a, b".data]
    DTSTART := some "2024-01-01 09:00".data
    DTEND := some "2024-01-01 10:00".data
    LOCATION := some []
    UID := some "u3".data }

def evGuests : EventInfo :=
  { Event := "alpha".data
    Start := "2024-01-01 09:00".data
    End := "2024-01-01 10:00".data
    Guests := "a, b".data
    Location := []
    UID := some "u3".data
    SourceFile := "g.ics".data
    MatchedKeywords := ["a".data] }

/-- C8 fails as stated: the code recomputes the guest number by splitting the
already-joined Guests string on `", "`; for the single extracted attendee
identifier `"a, b"` (from raw value `"mailto:a, b"`) the CSV reports Guest
number 2 although exactly one identifier was extracted. -/
theorem c8_counterexample :
    extract_events_by_keywords "g.ics".data ["a".data] [vGuests] = .ok [evGuests] ∧
    attendeesListOf vGuests.ATTENDEE = .ok ["a, b".data] ∧
    guestNumber evGuests.Guests = 2 ∧
    guestNumber evGuests.Guests ≠ 1 :=
  ⟨rfl, rfl, by decide, by decide⟩

/-- C8 amended: provided no extracted attendee identifier contains the
separator `", "` and the identifier list is not the single empty identifier,
the CSV Guest number equals the number of extracted identifiers (0 with an
empty Guests cell when there are none) and the Guests cell is the identifiers
joined by newlines, one per line. -/
theorem c8_guest_number_amended (atts : List Str)
    (hsep : ∀ a ∈ atts, ¬ commaSpace <:+: a) (hne : atts ≠ [[]]) :
    guestNumber (List.intercalate commaSpace atts) = atts.length ∧
    guestsCell (List.intercalate commaSpace atts) =
      List.intercalate ['\n'] atts := by
  cases atts with
  | nil => exact ⟨rfl, rfl⟩
  | cons a t =>
    have hsplit := pySplitCS_intercalate (a :: t) (by simp) hsep
    constructor
    · rw [guestNumber]
      by_cases hempty : (List.intercalate commaSpace (a :: t)).isEmpty
      · exfalso
        have h0 : List.intercalate commaSpace (a :: t) = [] :=
          List.isEmpty_iff.mp hempty
        rw [h0] at hsplit
        exact hne (by rw [← hsplit]; rfl)
      · rw [if_neg hempty, hsplit]
    · rw [guestsCell, hsplit]

theorem c8_witness :
    (∀ a ∈ ["alice".data, "bob".data], ¬ commaSpace <:+: a) ∧
    guestNumber (List.intercalate commaSpace ["alice".data, "bob".data]) = 2 ∧
    guestsCell (List.intercalate commaSpace ["alice".data, "bob".data]) =
      List.intercalate ['\n'] ["alice".data, "bob".data] :=
  ⟨by decide,
    (c8_guest_number_amended ["alice".data, "bob".data] (by decide) (by decide)).1,
    (c8_guest_number_amended ["alice".data, "bob".data] (by decide) (by decide)).2⟩

def vBadAtt : VEvent :=
  { SUMMARY := some "alpha".data
    DESCRIPTION := some []
    ATTENDEE := some ["xyz".data]
    DTSTART := some "2024-01-01 09:00".data
    DTEND := some "2024-01-01 10:00".data
    LOCATION := some []
    UID := some "u4".data }

theorem c10_witness :
    (∃ r, extractId "mailto:x".data = some r) ∧
    extractId "xyz".data = none ∧
    processVEvent "h.ics".data ["alpha".data] vBadAtt = .error .indexError ∧
    (∃ err, extract_events_by_keywords "h.ics".data ["alpha".data] [vBadAtt] =
      .error err) :=
  ⟨(c10_attendee_totality "mailto:x".data "h.ics".data ["alpha".data] vBadAtt
      ["xyz".data] [vBadAtt]).1 (by decide),
    (c10_attendee_totality "xyz".data "h.ics".data ["alpha".data] vBadAtt
      ["xyz".data] [vBadAtt]).2.1 (by decide),
    ((c10_attendee_totality "xyz".data "h.ics".data ["alpha".data] vBadAtt
      ["xyz".data] [vBadAtt]).2.2 rfl ⟨"xyz".data, by decide, by decide⟩
      (by decide)).1,
    ((c10_attendee_totality "xyz".data "h.ics".data ["alpha".data] vBadAtt
      ["xyz".data] [vBadAtt]).2.2 rfl ⟨"xyz".data, by decide, by decide⟩
      (by decide)).2⟩
